import Mathlib

/-!
Verification development for the block-to-document conversion engine in
gotfparse (converter.go).  The Go source is shallowly embedded: Go maps are
modelled as association lists keeping first-insertion order (iteration order
of Go maps is unspecified; no theorem below depends on the modelled order),
Go slices as lists, cty values as an inductive tagged union whose numbers are
exact rationals (cty numbers are arbitrary-precision big.Float values), and
the Go int64 produced by big.Float.Int64 as an Int saturated at the int64
bounds.  Panics are modelled by Option where a claim depends on them.
-/

namespace Tfparse

/-- Native JSON-compatible value, the Go interface value handed to the gabs
document builder.  The floating-point branch carries the exact rational the
code would round to float64; the rounding itself is not modelled and no
theorem below depends on it. -/
inductive JSON where
  | nullJ
  | int (i : Int)
  | float (q : ℚ)
  | str (s : String)
  | boolean (b : Bool)
  | arr (xs : List JSON)
  | obj (fields : List (String × JSON))

/-- Model of cty.Value.  Object and map types share one constructor, as do
list and tuple types, mirroring the pairs of type tests in
convertCtyToNativeValue.  otherType stands for every remaining cty type
(sets, capsules, ...), for which the conversion fails. -/
inductive CtyValue where
  | nullV
  | unknown
  | object (fields : List (String × CtyValue))
  | list (elems : List CtyValue)
  | string (s : String)
  | number (q : ℚ)
  | boolean (b : Bool)
  | otherType

/-- Model of (big.Float).Int64 applied to an integral big.Float: the exact
value when it fits in a signed 64-bit integer, otherwise the nearest bound
(math.MinInt64 or math.MaxInt64); the accuracy return value is discarded by
the Go code. -/
def bigFloatInt64 (i : Int) : Int :=
  if i < -9223372036854775808 then -9223372036854775808
  else if 9223372036854775807 < i then 9223372036854775807
  else i

mutual

/-- convertCtyToNativeValue from converter.go.  The Go function returns
(interface value, ok); here ok=false is none.  The branches appear in source
order: null, unknown, object/map, list/tuple, string, number, bool, and the
final fallthrough returning false.  In the number branch, num.IsInt() is the
exact integrality test (denominator one) and the emitted Go int64 is
bigFloatInt64 of the numerator. -/
def convertCtyToNativeValue : CtyValue → Option JSON
  | .nullV => some .nullJ
  | .unknown => some .nullJ
  | .object fields =>
      match convertCtyFields fields with
      | some fs => some (.obj fs)
      | none => none
  | .list elems =>
      match convertCtyElems elems with
      | some xs => some (.arr xs)
      | none => none
  | .string s => some (.str s)
  | .number q =>
      if q.den = 1 then some (.int (bigFloatInt64 q.num))
      else some (.float q)
  | .boolean b => some (.boolean b)
  | .otherType => none

/-- Member-wise conversion of an object or map value: the Go loop over
val.AsValueMap() returning (nil, false) as soon as one member fails. -/
def convertCtyFields : List (String × CtyValue) → Option (List (String × JSON))
  | [] => some []
  | (k, v) :: rest =>
      match convertCtyToNativeValue v with
      | none => none
      | some jv =>
          match convertCtyFields rest with
          | none => none
          | some fs => some ((k, jv) :: fs)

/-- Element-wise conversion of a list or tuple value: the Go loop over
val.AsValueSlice() with the same all-or-nothing failure propagation. -/
def convertCtyElems : List CtyValue → Option (List JSON)
  | [] => some []
  | v :: rest =>
      match convertCtyToNativeValue v with
      | none => none
      | some jv =>
          match convertCtyElems rest with
          | none => none
          | some xs => some (jv :: xs)

end

/-- Model of a terraform.Attribute as consumed by the converter: Name(),
Value(), GetRawValue() (already as the native value the Go any holds),
AllReferences() rendered to strings, and the friendly name produced by
DecodeVarType for the variable-type special case. -/
structure Attribute where
  name : String
  value : CtyValue
  rawValue : JSON
  allReferences : List String
  varTypeName : String

/-- Scalar data of a terraform.Block: Type(), TypeLabel(), NameLabel(),
ID(), Reference().String(), GetMetadata().String(), LocalName(), and the
source range (local filename, start line, end line), plus GetAttributes(). -/
structure BlockCore where
  btype : String
  typeLabel : String
  nameLabel : String
  idStr : String
  reference : String
  metaString : String
  localName : String
  filename : String
  startLine : Nat
  endLine : Nat
  attributes : List Attribute

/-- A terraform.Block: its scalar core, AllBlocks() as children, and the
unexported moduleBlock back-reference recovered via reflection in
getModuleName. -/
inductive Block where
  | mk (core : BlockCore) (children : List Block) (moduleBlock : Option Block)

def Block.core : Block → BlockCore
  | .mk c _ _ => c

def Block.children : Block → List Block
  | .mk _ cs _ => cs

def Block.moduleBlock : Block → Option Block
  | .mk _ _ m => m

def Block.btype (b : Block) : String := b.core.btype

def Block.typeLabel (b : Block) : String := b.core.typeLabel

def Block.nameLabel (b : Block) : String := b.core.nameLabel

def Block.idStr (b : Block) : String := b.core.idStr

def Block.reference (b : Block) : String := b.core.reference

def Block.metaString (b : Block) : String := b.core.metaString

def Block.localName (b : Block) : String := b.core.localName

def Block.filename (b : Block) : String := b.core.filename

def Block.startLine (b : Block) : Nat := b.core.startLine

def Block.endLine (b : Block) : Nat := b.core.endLine

def Block.attributes (b : Block) : List Attribute := b.core.attributes

mutual

/-- Structural size of a block tree, used as recursion fuel for the
block builder (the Go recursion is plainly structural on the tree). -/
def Block.size : Block → Nat
  | .mk _ cs _ => 1 + Block.sizeList cs

/-- Combined size of a list of blocks. -/
def Block.sizeList : List Block → Nat
  | [] => 0
  | c :: cs => Block.size c + Block.sizeList cs

end

/-- stringSet.Add: insert a string if it is not already present.  The Go set
is a map to bool; it is modelled as the list of members in insertion order. -/
def stringSetAdd (s : List String) (x : String) : List String :=
  if x ∈ s then s else s ++ [x]

/-- stringSet.Entries: the Go code allocates a slice of length len(s) (filled
with empty strings) and then appends every member, so the result has twice
the length of the set, empty strings first. -/
def stringSetEntries (s : List String) : List String :=
  List.replicate s.length "" ++ s

/-- The blocksByReference map of the converter, from reference string to
block, modelled as an association list in first-insertion order. -/
abbrev RefIndex := List (String × Block)

/-- Go map assignment t.blocksByReference[ref] = b: replace the value when
the key exists, otherwise add the pair. -/
def insertRef : RefIndex → String → Block → RefIndex
  | [], ref, b => [(ref, b)]
  | (k, v) :: rest, ref, b =>
      if k = ref then (k, b) :: rest
      else (k, v) :: insertRef rest ref b

/-- Go map lookup block, ok := t.blocksByReference[ref]. -/
def lookupRef : RefIndex → String → Option Block
  | [], _ => none
  | (k, v) :: rest, ref => if k = ref then some v else lookupRef rest ref

/-- Block.GetAttribute: the first attribute with the given name, if any. -/
def getAttribute (b : Block) (nm : String) : Option Attribute :=
  b.attributes.find? (fun a => a.name == nm)

/-- getAttributeValue from converter.go: convert the attribute value, and on
failure return the raw textual representation of the attribute instead. -/
def getAttributeValue (a : Attribute) : JSON :=
  match convertCtyToNativeValue a.value with
  | some raw => raw
  | none => a.rawValue

/-- The getForEachCount closure inside getChildBlocks: a missing attribute
yields the nil cty value, which is null, so it counts 0; a null value counts
0; otherwise the length of value.AsValueSlice().  AsValueSlice iterates
collections (for maps and objects it yields the member values); on the
remaining non-iterable values the Go code panics inside AsValueSlice, a case
no claim below exercises, modelled here as 0. -/
def getForEachCount (b : Block) : Nat :=
  match getAttribute b "for_each" with
  | none => 0
  | some attr =>
      match attr.value with
      | .nullV => 0
      | .list elems => elems.length
      | .object fields => fields.length
      | _ => 0

/-- The loop body of getChildBlocks, with its two accumulator variables
expectedContentBlocks (a Go int, which may go negative) and prevMaxEnd. -/
def getChildBlocksGo : List Block → Int → Nat → List Block
  | [], _, _ => []
  | block :: rest, expectedContentBlocks, prevMaxEnd =>
      if block.btype = "dynamic" then
        getChildBlocksGo rest (expectedContentBlocks + (getForEachCount block : Int)) prevMaxEnd
      else if prevMaxEnd ≤ block.startLine then
        block :: getChildBlocksGo rest expectedContentBlocks block.endLine
      else if expectedContentBlocks - 1 > 0 then
        block :: getChildBlocksGo rest (expectedContentBlocks - 1) prevMaxEnd
      else
        getChildBlocksGo rest (expectedContentBlocks - 1) prevMaxEnd

/-- getChildBlocks from converter.go: the single forward pass over
b.AllBlocks() that skips dynamic template blocks and reconciles duplicated
synthesized instances. -/
def getChildBlocks (b : Block) : List Block :=
  getChildBlocksGo b.children 0 0

/-- Lookup in a document object (a Go map modelled as an association list). -/
def getKey : List (String × JSON) → String → Option JSON
  | [], _ => none
  | p :: rest, k => if p.1 = k then some p.2 else getKey rest k

/-- Go map assignment obj[k] = v on a document object. -/
def objInsert : List (String × JSON) → String → JSON → List (String × JSON)
  | [], k, v => [(k, v)]
  | p :: rest, k, v =>
      if p.1 = k then (p.1, v) :: rest
      else p :: objInsert rest k v

/-- Whether a document object has an entry for the key. -/
def objHasKey (o : List (String × JSON)) (k : String) : Bool :=
  (getKey o k).isSome

/-- The add closure of newBlockCollector: getList obtains (or creates) the
slice for the key and the value is appended to it. -/
def collectorAdd : List (String × List JSON) → String → JSON → List (String × List JSON)
  | [], k, v => [(k, [v])]
  | p :: rest, k, v =>
      if p.1 = k then (p.1, p.2 ++ [v]) :: rest
      else p :: collectorAdd rest k v

/-- The flattening rule of the dump closure of newBlockCollector: a
one-element slice becomes its single element, any other slice is kept as a
JSON array. -/
def collectorFlatten : List JSON → JSON
  | [v] => v
  | vs => .arr vs

/-- The dump closure of newBlockCollector: apply the flattening rule to
every collected group. -/
def collectorDump (coll : List (String × List JSON)) : List (String × JSON) :=
  coll.map fun p => (p.1, collectorFlatten p.2)

/-- Lookup of the collected group for a key inside the block collector. -/
def collectLookup : List (String × List JSON) → String → Option (List JSON)
  | [], _ => none
  | p :: rest, k => if p.1 = k then some p.2 else collectLookup rest k

/-- Appending further values to an optional collected group, the combined
effect on one key of a run of collectorAdd calls. -/
def optAppend : Option (List JSON) → List JSON → Option (List JSON)
  | none, [] => none
  | none, ws => some ws
  | some vs, ws => some (vs ++ ws)

/-- The per-reference descriptor built by getAttributeRefsMeta. -/
def mkRefDescriptor (b : Block) : List (String × JSON) :=
  [("id", .str b.idStr), ("label", .str b.typeLabel), ("name", .str b.nameLabel)]

/-- getAttributeRefsMeta from converter.go: for every reference string that
resolves in blocksByReference, one descriptor of the referenced block. -/
def getAttributeRefsMeta (idx : RefIndex) (refs : List String) : List (List (String × JSON)) :=
  refs.foldl
    (fun acc ref =>
      match lookupRef idx ref with
      | some block => acc ++ [mkRefDescriptor block]
      | none => acc)
    []

/-- The value stored for one attribute by the loop in buildBlock: the decoded
variable type name for the type attribute of a variable block, otherwise the
converted value with raw-text fallback. -/
def attrObjValue (btype : String) (a : Attribute) : JSON :=
  if btype = "variable" ∧ a.name = "type" then .str a.varTypeName
  else getAttributeValue a

/-- The metadata object built at the end of buildBlock from the accumulated
reference set: filename, start and end line, then a references entry when at
least one reference resolves, then a label entry when the type label is
nonempty. -/
def metaFieldsFor (idx : RefIndex) (b : Block) (allRefs : List String) : List (String × JSON) :=
  let meta0 : List (String × JSON) :=
    [("filename", .str b.filename),
     ("line_start", .int (b.startLine : Int)),
     ("line_end", .int (b.endLine : Int))]
  let refs := getAttributeRefsMeta idx (stringSetEntries allRefs)
  let meta1 :=
    if 0 < refs.length then meta0 ++ [("references", .arr (refs.map JSON.obj))] else meta0
  if b.typeLabel ≠ "" then meta1 ++ [("label", .str b.typeLabel)] else meta1

/-- The body of buildBlock once the child documents childPairs (child type
paired with built child document) are available: group children through the
block collector and copy the groups into the object, then store every
attribute value while accumulating the union of attribute references, then
the id when nonempty, then the metadata object under the reserved key. -/
def buildBlockWith (idx : RefIndex) (b : Block) (childPairs : List (String × JSON)) :
    List (String × JSON) :=
  let grouped := collectorDump (childPairs.foldl (fun c p => collectorAdd c p.1 p.2) [])
  let obj0 := grouped.foldl (fun o p => objInsert o p.1 p.2) []
  let st := b.attributes.foldl
    (fun st a =>
      (objInsert st.1 a.name (attrObjValue b.btype a),
       a.allReferences.foldl stringSetAdd st.2))
    (obj0, [])
  let obj1 := if b.idStr ≠ "" then objInsert st.1 "id" (.str b.idStr) else st.1
  objInsert obj1 "__tfmeta" (.obj (metaFieldsFor idx b st.2))

/-- buildBlock with explicit recursion fuel; the wrapper buildBlock always
supplies enough fuel, so the fuel-exhausted branch is unreachable. -/
def buildBlockGo (idx : RefIndex) : Nat → Block → List (String × JSON)
  | 0, _ => []
  | fuel + 1, b =>
      buildBlockWith idx b
        ((getChildBlocks b).map fun c => (c.btype, .obj (buildBlockGo idx fuel c)))

/-- buildBlock from converter.go: one document object per block, built
recursively over the deduplicated children. -/
def buildBlock (idx : RefIndex) (b : Block) : List (String × JSON) :=
  buildBlockGo idx b.size b

/-- The reference set accumulated across all attributes of a block inside
buildBlock (the allRefs variable when the attribute loop ends). -/
def blockAllRefs (b : Block) : List String :=
  b.attributes.foldl (fun s a => a.allReferences.foldl stringSetAdd s) []

/-- The fields of the reserved __tfmeta entry of a built document. -/
def tfmetaFields (doc : List (String × JSON)) : List (String × JSON) :=
  match getKey doc "__tfmeta" with
  | some (.obj m) => m
  | _ => []

/-- The references array inside the reserved metadata of a built document. -/
def refsMetaOf (doc : List (String × JSON)) : List JSON :=
  match getKey (tfmetaFields doc) "references" with
  | some (.arr xs) => xs
  | _ => []

/-- getPath from converter.go. -/
def getPath (b : Block) (parentPath : String) : String :=
  if parentPath = "" then b.metaString
  else parentPath ++ "." ++ b.metaString

/-- getModuleName from converter.go: walk the reflected moduleBlock chain,
joining local names outermost first. -/
def getModuleName : Block → String
  | .mk _ _ none => ""
  | .mk _ _ (some mb) =>
      let moduleName := mb.localName
      let parentName := getModuleName mb
      if parentName ≠ "" then parentName ++ "." ++ moduleName else moduleName

/-- The prefixes set of getModulePath: the distinct nonempty module names of
the root blocks, in first-occurrence order. -/
def modNames (blocks : List Block) : List String :=
  blocks.foldl
    (fun s b =>
      let n := getModuleName b
      if n ≠ "" then stringSetAdd s n else s)
    []

/-- getModulePath from converter.go: collect the distinct nonempty module
names of the root blocks; more than one is a panic (none here); otherwise
the single name, or the empty string when there is none. -/
def getModulePath (blocks : List Block) : Option String :=
  let names := modNames blocks
  if names.length > 1 then none
  else some (names.headD "")

/-- The in-place mutation of the __tfmeta map performed by visitBlock
(meta[k] = v on the map obtained from json under the reserved key; by
construction that entry always holds an object). -/
def updateMeta (doc : List (String × JSON)) (k : String) (v : JSON) : List (String × JSON) :=
  doc.map fun p =>
    if p.1 = "__tfmeta" then
      (p.1,
       match p.2 with
       | .obj m => .obj (objInsert m k v)
       | other => other)
    else p

/-- The output document: gabs container restricted to what the converter
produces, a mapping from collection key to the appended per-block documents
(ArrayAppendP semantics). -/
abbrev Output := List (String × List JSON)

/-- gabs ArrayAppendP: append the value to the array at the key, creating
the array when absent. -/
def arrayAppend : Output → String → JSON → Output
  | [], k, v => [(k, [v])]
  | p :: rest, k, v =>
      if p.1 = k then (p.1, p.2 ++ [v]) :: rest
      else p :: arrayAppend rest k v

/-- The block types of the switch in visitBlock. -/
def handledBlockTypes : List String :=
  ["data", "locals", "output", "provider", "terraform", "variable", "module", "moved", "resource"]

/-- visitBlock from converter.go: register the block in blocksByReference,
then for a handled block type build its document, add the computed path (and
for data and resource the block type) to the reserved metadata, and append
the document under the collection key; any other type is only logged. -/
def visitBlock (idx : RefIndex) (out : Output) (b : Block) (parentPath : String) :
    RefIndex × Output :=
  let idx' := insertRef idx b.reference b
  if b.btype ∈ handledBlockTypes then
    let json := buildBlock idx' b
    let arrayKey := getPath b parentPath
    let json1 := updateMeta json "path" (.str arrayKey)
    if b.btype = "data" ∨ b.btype = "resource" then
      (idx', arrayAppend out b.typeLabel (.obj (updateMeta json1 "type" (.str b.btype))))
    else
      (idx', arrayAppend out b.btype (.obj json1))
  else
    (idx', out)

/-- A terraform.Module as consumed by the walker: GetBlocks(). -/
structure Module where
  blocks : List Block

/-- visitModule from converter.go: compute the module path (a panic when the
root blocks disagree, hence none) and visit every block with it. -/
def visitModule (idx : RefIndex) (out : Output) (m : Module) : Option (RefIndex × Output) :=
  match getModulePath m.blocks with
  | none => none
  | some path => some (m.blocks.foldl (fun st b => visitBlock st.1 st.2 b path) (idx, out))

/-- VisitJSON from converter.go: walk every module over a fresh output
container and the reference index of the converter (empty at entry). -/
def visitJSON (ms : List Module) : Option (RefIndex × Output) :=
  ms.foldlM (fun st m => visitModule st.1 st.2 m) (([] : RefIndex), ([] : Output))

/-! ### Concrete blocks used to instantiate the theorems -/

/-- A block core with neutral field values, adjusted per test block. -/
def wCore : BlockCore :=
  { btype := "x", typeLabel := "", nameLabel := "", idStr := "", reference := "",
    metaString := "", localName := "", filename := "main.tf", startLine := 1, endLine := 1,
    attributes := [] }

/-- A for_each attribute evaluating to a two-element collection. -/
def feAttrW : Attribute :=
  { name := "for_each", value := CtyValue.list [CtyValue.string "a", CtyValue.string "b"],
    rawValue := JSON.nullJ, allReferences := [], varTypeName := "" }

/-- A dynamic template block with the two-element for_each. -/
def dynW : Block :=
  Block.mk
    { wCore with
      btype := "dynamic", startLine := 2, endLine := 6, attributes := [feAttrW] }
    [] none

/-- A synthesized instance of the templated child type, spanning lines 3-5. -/
def instW : Block :=
  Block.mk { wCore with btype := "ingress", startLine := 3, endLine := 5 } [] none

/-- A resource block whose raw children are the template followed by its two
duplicated synthesized instances. -/
def parentW : Block :=
  Block.mk
    { wCore with
      btype := "resource", typeLabel := "aws_thing", reference := "aws_thing.a",
      metaString := "aws_thing.a", endLine := 7 }
    [dynW, instW, instW] none

/-- A parent with exactly one child of the templated type. -/
def parentOneW : Block :=
  Block.mk
    { wCore with
      btype := "resource", typeLabel := "aws_thing", reference := "aws_thing.b",
      metaString := "aws_thing.b", endLine := 7 }
    [instW] none

/-- A child block used to exhibit the metadata of recursively built nodes. -/
def c3Child : Block :=
  Block.mk { wCore with btype := "child_block", startLine := 2, endLine := 3 } [] none

/-- A module block with one nested child block. -/
def c3Parent : Block :=
  Block.mk
    { wCore with
      btype := "module", reference := "module.m", metaString := "module.m", endLine := 5 }
    [c3Child] none

/-- The reference index right after visitBlock registers c3Parent. -/
def c3Idx : RefIndex := insertRef [] c3Parent.reference c3Parent

/-- A referenced block registered in the reference index. -/
def refTargetW : Block :=
  Block.mk
    { wCore with
      btype := "resource", typeLabel := "aws_s3_bucket", nameLabel := "b", idStr := "id-b",
      reference := "aws_s3_bucket.b", metaString := "aws_s3_bucket.b" }
    [] none

/-- An attribute of the referencing block holding the reference string. -/
def refAttrW : Attribute :=
  { name := "bucket", value := CtyValue.string "x", rawValue := JSON.nullJ,
    allReferences := ["aws_s3_bucket.b"], varTypeName := "" }

/-- A block whose attribute references refTargetW. -/
def refSourceW : Block :=
  Block.mk { wCore with btype := "resource", attributes := [refAttrW] } [] none

/-- The reference index with refTargetW registered. -/
def refIdxW : RefIndex := [("aws_s3_bucket.b", refTargetW)]

/-- A block whose enclosing module-inclusion chain is module.a. -/
def inModA : Block :=
  Block.mk wCore [] (some (Block.mk { wCore with localName := "module.a" } [] none))

/-- A block whose enclosing module-inclusion chain is module.b. -/
def inModB : Block :=
  Block.mk wCore [] (some (Block.mk { wCore with localName := "module.b" } [] none))

/-- An attribute whose typed value the converter rejects (opaque type). -/
def badAttrW : Attribute :=
  { name := "opaque_attr", value := CtyValue.otherType, rawValue := JSON.str "raw_text",
    allReferences := [], varTypeName := "" }

/-- An attribute whose typed value converts normally. -/
def goodAttrW : Attribute :=
  { name := "num_attr", value := CtyValue.number 3, rawValue := JSON.nullJ,
    allReferences := [], varTypeName := "" }

/-- A block carrying both the rejected and the convertible attribute. -/
def c6Block : Block :=
  Block.mk { wCore with btype := "resource", attributes := [badAttrW, goodAttrW] } [] none

/-- A block named aws_s3_bucket.main, for the path-composition example. -/
def pathBlockW : Block :=
  Block.mk { wCore with btype := "resource", metaString := "aws_s3_bucket.main" } [] none

/-- A one-module input for the walker. -/
def c9Mods : List Module := [Module.mk [refTargetW]]

/-- The state the walker produces on c9Mods. -/
def c9Res : RefIndex × Output := (visitJSON c9Mods).getD ([], [])

/-! ### Lemmas about document objects and string sets -/

theorem getKey_objInsert_self (o : List (String × JSON)) (k : String) (v : JSON) :
    getKey (objInsert o k v) k = some v := by
  induction o with
  | nil => simp [objInsert, getKey]
  | cons p rest ih =>
      by_cases h : p.1 = k
      · simp [objInsert, h, getKey]
      · simp [objInsert, h, getKey, ih]

theorem getKey_objInsert_ne (o : List (String × JSON)) {k k' : String} (v : JSON)
    (h : k' ≠ k) : getKey (objInsert o k v) k' = getKey o k' := by
  have h' : ¬ k = k' := fun hh => h hh.symm
  induction o with
  | nil => simp [objInsert, getKey, h']
  | cons p rest ih =>
      by_cases hp : p.1 = k
      · simp [objInsert, hp, getKey, h']
      · simp [objInsert, hp, getKey, ih]

theorem mem_stringSetAdd {s : List String} {x y : String} :
    y ∈ stringSetAdd s x ↔ y ∈ s ∨ y = x := by
  unfold stringSetAdd
  split
  · rename_i hmem
    constructor
    · exact Or.inl
    · rintro (h | rfl)
      · exact h
      · exact hmem
  · simp [List.mem_append]

theorem nodup_stringSetAdd {s : List String} {x : String} (h : s.Nodup) :
    (stringSetAdd s x).Nodup := by
  unfold stringSetAdd
  split
  · exact h
  · rename_i hx
    simpa [List.nodup_append, hx] using h

theorem mem_foldl_stringSetAdd (l : List String) :
    ∀ (s : List String) (y : String), y ∈ l.foldl stringSetAdd s ↔ y ∈ s ∨ y ∈ l := by
  induction l with
  | nil => simp
  | cons x xs ih =>
      intro s y
      rw [List.foldl_cons, ih]
      rw [mem_stringSetAdd]
      constructor
      · rintro ((h | rfl) | h)
        · exact Or.inl h
        · exact Or.inr (List.mem_cons_self _ _)
        · exact Or.inr (List.mem_cons_of_mem _ h)
      · rintro (h | h)
        · exact Or.inl (Or.inl h)
        · rcases List.mem_cons.mp h with rfl | h2
          · exact Or.inl (Or.inr rfl)
          · exact Or.inr h2

theorem nodup_foldl_stringSetAdd (l : List String) :
    ∀ (s : List String), s.Nodup → (l.foldl stringSetAdd s).Nodup := by
  induction l with
  | nil => intro s hs; simpa using hs
  | cons x xs ih =>
      intro s hs
      rw [List.foldl_cons]
      exact ih _ (nodup_stringSetAdd hs)

theorem mem_blockAllRefs {b : Block} {r : String} :
    r ∈ blockAllRefs b ↔ ∃ a ∈ b.attributes, r ∈ a.allReferences := by
  unfold blockAllRefs
  have main : ∀ (attrs : List Attribute) (s : List String) (y : String),
      y ∈ attrs.foldl (fun s a => a.allReferences.foldl stringSetAdd s) s ↔
        y ∈ s ∨ ∃ a ∈ attrs, y ∈ a.allReferences := by
    intro attrs
    induction attrs with
    | nil => simp
    | cons a rest ih =>
        intro s y
        rw [List.foldl_cons, ih, mem_foldl_stringSetAdd]
        constructor
        · rintro ((h | h) | h)
          · exact Or.inl h
          · exact Or.inr ⟨a, List.mem_cons_self _ _, h⟩
          · rcases h with ⟨a2, ha2, hy⟩
            exact Or.inr ⟨a2, List.mem_cons_of_mem _ ha2, hy⟩
        · rintro (h | ⟨a2, ha2, hy⟩)
          · exact Or.inl (Or.inl h)
          · rcases List.mem_cons.mp ha2 with rfl | h2
            · exact Or.inl (Or.inr hy)
            · exact Or.inr ⟨a2, h2, hy⟩
  rw [main]
  simp

theorem nodup_blockAllRefs (b : Block) : (blockAllRefs b).Nodup := by
  unfold blockAllRefs
  have main : ∀ (attrs : List Attribute) (s : List String), s.Nodup →
      (attrs.foldl (fun s a => a.allReferences.foldl stringSetAdd s) s).Nodup := by
    intro attrs
    induction attrs with
    | nil => intro s hs; simpa using hs
    | cons a rest ih =>
        intro s hs
        rw [List.foldl_cons]
        exact ih _ (nodup_foldl_stringSetAdd _ _ hs)
  exact main _ _ List.nodup_nil

/-! ### Lemmas about reference metadata -/

theorem getAttributeRefsMeta_aux (idx : RefIndex) (rs : List String) :
    ∀ acc, rs.foldl
        (fun acc ref =>
          match lookupRef idx ref with
          | some block => acc ++ [mkRefDescriptor block]
          | none => acc) acc
      = acc ++ rs.filterMap (fun r => (lookupRef idx r).map mkRefDescriptor) := by
  induction rs with
  | nil => simp
  | cons r rest ih =>
      intro acc
      rw [List.foldl_cons, ih]
      cases h : lookupRef idx r with
      | none => simp [List.filterMap_cons, h]
      | some blk => simp [List.filterMap_cons, h]

theorem getAttributeRefsMeta_eq_filterMap (idx : RefIndex) (rs : List String) :
    getAttributeRefsMeta idx rs
      = rs.filterMap (fun r => (lookupRef idx r).map mkRefDescriptor) := by
  unfold getAttributeRefsMeta
  simpa using getAttributeRefsMeta_aux idx rs []

theorem getAttributeRefsMeta_entries (idx : RefIndex) (s : List String)
    (h : lookupRef idx "" = none) :
    getAttributeRefsMeta idx (stringSetEntries s) = getAttributeRefsMeta idx s := by
  rw [getAttributeRefsMeta_eq_filterMap, getAttributeRefsMeta_eq_filterMap]
  unfold stringSetEntries
  rw [List.filterMap_append]
  have hrep : ∀ n : Nat,
      (List.replicate n "").filterMap (fun r => (lookupRef idx r).map mkRefDescriptor) = [] := by
    intro n
    induction n with
    | zero => rfl
    | succ m ih => simp [List.replicate_succ, List.filterMap_cons, h, ih]
  rw [hrep]
  rfl

/-! ### Recursion fuel for the block builder -/

theorem Block.size_pos (b : Block) : 0 < b.size := by
  cases b with
  | mk c cs m => simp [Block.size]

theorem Block.size_le_of_mem {c : Block} :
    ∀ {l : List Block}, c ∈ l → c.size ≤ Block.sizeList l := by
  intro l h
  induction l with
  | nil => cases h
  | cons x xs ih =>
      rcases List.mem_cons.mp h with rfl | h2
      · simp [Block.sizeList]
      · have := ih h2
        simp only [Block.sizeList]
        omega

theorem Block.size_lt_of_mem_children {c b : Block} (h : c ∈ b.children) :
    c.size < b.size := by
  cases b with
  | mk core cs m =>
      have h1 : c.size ≤ Block.sizeList cs := Block.size_le_of_mem (by simpa [Block.children] using h)
      simp only [Block.size]
      omega

theorem mem_of_mem_getChildBlocksGo {c : Block} :
    ∀ {l : List Block} {e : Int} {pm : Nat}, c ∈ getChildBlocksGo l e pm → c ∈ l := by
  intro l
  induction l with
  | nil => intro e pm h; simp [getChildBlocksGo] at h
  | cons x xs ih =>
      intro e pm h
      rw [getChildBlocksGo] at h
      split at h
      · exact List.mem_cons_of_mem _ (ih h)
      · split at h
        · rcases List.mem_cons.mp h with rfl | h2
          · exact List.mem_cons_self _ _
          · exact List.mem_cons_of_mem _ (ih h2)
        · split at h
          · rcases List.mem_cons.mp h with rfl | h2
            · exact List.mem_cons_self _ _
            · exact List.mem_cons_of_mem _ (ih h2)
          · exact List.mem_cons_of_mem _ (ih h)

theorem mem_of_mem_getChildBlocks {c b : Block} (h : c ∈ getChildBlocks b) :
    c ∈ b.children :=
  mem_of_mem_getChildBlocksGo h

theorem buildBlockGo_congr (idx : RefIndex) :
    ∀ (f : Nat), ∀ {g : Nat} {b : Block}, b.size ≤ f → b.size ≤ g →
      buildBlockGo idx f b = buildBlockGo idx g b := by
  intro f
  induction f with
  | zero =>
      intro g b hf hg
      exact absurd hf (by have := Block.size_pos b; omega)
  | succ f ih =>
      intro g b hf hg
      obtain ⟨g', rfl⟩ : ∃ g', g = g' + 1 := by
        have := Block.size_pos b; cases g with
        | zero => omega
        | succ g' => exact ⟨g', rfl⟩
      rw [buildBlockGo, buildBlockGo]
      congr 1
      apply List.map_congr_left
      intro c hc
      have hlt : c.size < b.size :=
        Block.size_lt_of_mem_children (mem_of_mem_getChildBlocks hc)
      have h1 : c.size ≤ f := by omega
      have h2 : c.size ≤ g' := by omega
      rw [ih h1 h2]

/-- Recursion equation of buildBlock: build every deduplicated child first,
then assemble the document. -/
theorem buildBlock_eq (idx : RefIndex) (b : Block) :
    buildBlock idx b
      = buildBlockWith idx b
          ((getChildBlocks b).map fun c => (c.btype, .obj (buildBlock idx c))) := by
  unfold buildBlock
  obtain ⟨n, hn⟩ : ∃ n, b.size = n + 1 := by
    have := Block.size_pos b
    exact ⟨b.size - 1, by omega⟩
  rw [hn, buildBlockGo]
  congr 1
  apply List.map_congr_left
  intro c hc
  have hlt : c.size < b.size :=
    Block.size_lt_of_mem_children (mem_of_mem_getChildBlocks hc)
  rw [buildBlockGo_congr idx n (by omega) (le_refl c.size)]

/-! ### The attribute loop of buildBlock -/

theorem attrFold_split (bt : String) (attrs : List Attribute) :
    ∀ (o : List (String × JSON)) (s : List String),
      attrs.foldl
          (fun st a =>
            (objInsert st.1 a.name (attrObjValue bt a),
             a.allReferences.foldl stringSetAdd st.2))
          (o, s)
        = (attrs.foldl (fun o a => objInsert o a.name (attrObjValue bt a)) o,
           attrs.foldl (fun s a => a.allReferences.foldl stringSetAdd s) s) := by
  induction attrs with
  | nil => intro o s; rfl
  | cons a rest ih => intro o s; rw [List.foldl_cons, ih]; rfl

theorem getKey_attrFold_ne (bt : String) {k : String} (attrs : List Attribute)
    (h : ∀ a ∈ attrs, a.name ≠ k) :
    ∀ (o : List (String × JSON)),
      getKey (attrs.foldl (fun o a => objInsert o a.name (attrObjValue bt a)) o) k
        = getKey o k := by
  induction attrs with
  | nil => intro o; rfl
  | cons a rest ih =>
      intro o
      rw [List.foldl_cons, ih (fun a2 ha2 => h a2 (List.mem_cons_of_mem _ ha2))]
      exact getKey_objInsert_ne o _ (fun hh => h a (List.mem_cons_self _ _) hh.symm)

theorem getKey_attrFold_mem (bt : String) {a : Attribute} (attrs : List Attribute)
    (hmem : a ∈ attrs) (hnd : (attrs.map Attribute.name).Nodup) :
    ∀ (o : List (String × JSON)),
      getKey (attrs.foldl (fun o a => objInsert o a.name (attrObjValue bt a)) o) a.name
        = some (attrObjValue bt a) := by
  induction attrs with
  | nil => cases hmem
  | cons a0 rest ih =>
      intro o
      rw [List.foldl_cons]
      rcases List.mem_cons.mp hmem with rfl | h2
      · have hrest : ∀ a2 ∈ rest, a2.name ≠ a.name := by
          intro a2 ha2 hne
          have := (List.nodup_cons.mp hnd).1
          exact this (hne ▸ List.mem_map_of_mem Attribute.name ha2)
        rw [getKey_attrFold_ne bt rest hrest]
        exact getKey_objInsert_self _ _ _
      · exact ih h2 (List.nodup_cons.mp hnd).2 _

/-! ### Structure of documents built by buildBlockWith -/

theorem getKey_buildBlockWith_tfmeta (idx : RefIndex) (b : Block) (cp : List (String × JSON)) :
    getKey (buildBlockWith idx b cp) "__tfmeta"
      = some (.obj (metaFieldsFor idx b (blockAllRefs b))) := by
  unfold buildBlockWith
  simp only []
  rw [attrFold_split]
  exact getKey_objInsert_self _ _ _

theorem tfmetaFields_buildBlockWith (idx : RefIndex) (b : Block) (cp : List (String × JSON)) :
    tfmetaFields (buildBlockWith idx b cp) = metaFieldsFor idx b (blockAllRefs b) := by
  unfold tfmetaFields
  rw [getKey_buildBlockWith_tfmeta]

theorem getKey_metaFieldsFor (idx : RefIndex) (b : Block) (allRefs : List String) :
    getKey (metaFieldsFor idx b allRefs) "filename" = some (.str b.filename)
    ∧ getKey (metaFieldsFor idx b allRefs) "line_start" = some (.int (b.startLine : Int))
    ∧ getKey (metaFieldsFor idx b allRefs) "line_end" = some (.int (b.endLine : Int))
    ∧ getKey (metaFieldsFor idx b allRefs) "path" = none
    ∧ getKey (metaFieldsFor idx b allRefs) "type" = none
    ∧ getKey (metaFieldsFor idx b allRefs) "label"
        = (if b.typeLabel ≠ "" then some (.str b.typeLabel) else none)
    ∧ getKey (metaFieldsFor idx b allRefs) "references"
        = (if 0 < (getAttributeRefsMeta idx (stringSetEntries allRefs)).length
           then some (.arr ((getAttributeRefsMeta idx (stringSetEntries allRefs)).map JSON.obj))
           else none) := by
  by_cases hl : b.typeLabel = "" <;>
    by_cases hr : 0 < (getAttributeRefsMeta idx (stringSetEntries allRefs)).length <;>
      simp [metaFieldsFor, hl, hr, getKey]

theorem getKey_buildBlockWith_attr (idx : RefIndex) (b : Block) (cp : List (String × JSON))
    {a : Attribute} (hmem : a ∈ b.attributes)
    (hnd : (b.attributes.map Attribute.name).Nodup)
    (hid : a.name ≠ "id" ∨ b.idStr = "") (hmeta : a.name ≠ "__tfmeta") :
    getKey (buildBlockWith idx b cp) a.name = some (attrObjValue b.btype a) := by
  unfold buildBlockWith
  simp only []
  rw [attrFold_split]
  rw [getKey_objInsert_ne _ _ hmeta]
  rcases hid with hid | hid
  · by_cases hb : b.idStr ≠ ""
    · rw [if_pos hb, getKey_objInsert_ne _ _ hid]
      exact getKey_attrFold_mem _ _ hmem hnd _
    · rw [if_neg hb]
      exact getKey_attrFold_mem _ _ hmem hnd _
  · rw [if_neg (by simp [hid])]
    exact getKey_attrFold_mem _ _ hmem hnd _

theorem getKey_buildBlockWith_other (idx : RefIndex) (b : Block) (cp : List (String × JSON))
    {X : String} (hattr : ∀ a ∈ b.attributes, a.name ≠ X)
    (hid : X ≠ "id") (hmeta : X ≠ "__tfmeta") :
    getKey (buildBlockWith idx b cp) X
      = getKey ((collectorDump (cp.foldl (fun c p => collectorAdd c p.1 p.2) [])).foldl
          (fun o p => objInsert o p.1 p.2) []) X := by
  unfold buildBlockWith
  simp only []
  rw [attrFold_split]
  rw [getKey_objInsert_ne _ _ hmeta]
  have hstep : ∀ o, getKey
      (b.attributes.foldl (fun o a => objInsert o a.name (attrObjValue b.btype a)) o) X
      = getKey o X := fun o => getKey_attrFold_ne _ _ hattr o
  by_cases hb : b.idStr ≠ ""
  · rw [if_pos hb, getKey_objInsert_ne _ _ hid, hstep]
  · rw [if_neg hb, hstep]

/-! ### The block collector -/

theorem collectLookup_collectorAdd (c : List (String × List JSON)) (k k' : String) (v : JSON) :
    collectLookup (collectorAdd c k v) k'
      = if k = k' then some ((collectLookup c k).getD [] ++ [v])
        else collectLookup c k' := by
  induction c with
  | nil => simp [collectorAdd, collectLookup]
  | cons p rest ih =>
      by_cases hp : p.1 = k
      · subst hp
        by_cases h : p.1 = k'
        · simp [collectorAdd, collectLookup, h]
        · simp [collectorAdd, collectLookup, h]
      · by_cases h : p.1 = k'
        · have hk : ¬ k = k' := fun hh => hp (h.trans hh.symm)
          have hk2 : ¬ k' = k := fun hh => hk hh.symm
          simp [collectorAdd, hp, collectLookup, h, hk, hk2]
        · simp [collectorAdd, hp, collectLookup, h, ih]

theorem optAppend_push (x : Option (List JSON)) (v : JSON) (ws : List JSON) :
    optAppend (some (x.getD [] ++ [v])) ws = optAppend x (v :: ws) := by
  cases x <;> simp [optAppend]

theorem collectLookup_foldl (pairs : List (String × JSON)) :
    ∀ (c0 : List (String × List JSON)) (k : String),
      collectLookup (pairs.foldl (fun c p => collectorAdd c p.1 p.2) c0) k
        = optAppend (collectLookup c0 k)
            ((pairs.filter fun p => p.1 == k).map Prod.snd) := by
  induction pairs with
  | nil =>
      intro c0 k
      cases h : collectLookup c0 k <;> simp [optAppend, h]
  | cons p rest ih =>
      intro c0 k
      rw [List.foldl_cons, ih, collectLookup_collectorAdd]
      by_cases h : p.1 = k
      · rw [if_pos h, h, optAppend_push]
        simp [List.filter_cons, h]
      · rw [if_neg h]
        simp [List.filter_cons, h]

theorem getKey_collectorDump (c : List (String × List JSON)) (k : String) :
    getKey (collectorDump c) k = (collectLookup c k).map collectorFlatten := by
  induction c with
  | nil => rfl
  | cons p rest ih =>
      rw [show collectorDump (p :: rest) = (p.1, collectorFlatten p.2) :: collectorDump rest
        from rfl]
      by_cases h : p.1 = k
      · simp [getKey, collectLookup, h]
      · simp [getKey, collectLookup, h, ih]

theorem getKey_eq_none_of_not_mem {l : List (String × JSON)} {k : String}
    (h : k ∉ l.map Prod.fst) : getKey l k = none := by
  induction l with
  | nil => rfl
  | cons p rest ih =>
      rw [List.map_cons] at h
      have h1 : ¬ p.1 = k := fun hh => h (hh ▸ List.mem_cons_self _ _)
      have h2 : k ∉ rest.map Prod.fst := fun hh => h (List.mem_cons_of_mem _ hh)
      simp [getKey, h1, ih h2]

theorem getKey_foldl_objInsert (l : List (String × JSON)) :
    ∀ (acc : List (String × JSON)) (k : String), (l.map Prod.fst).Nodup →
      getKey (l.foldl (fun o p => objInsert o p.1 p.2) acc) k
        = match getKey l k with
          | some v => some v
          | none => getKey acc k := by
  induction l with
  | nil => intro acc k h; rfl
  | cons p rest ih =>
      intro acc k hnd
      rw [List.map_cons, List.nodup_cons] at hnd
      rw [List.foldl_cons, ih _ k hnd.2]
      by_cases h : p.1 = k
      · have hrest : getKey rest k = none :=
          getKey_eq_none_of_not_mem (h ▸ hnd.1)
        simp [getKey, h, hrest, h ▸ getKey_objInsert_self acc p.1 p.2]
      · simp only [getKey, if_neg h]
        cases getKey rest k with
        | some v => rfl
        | none => simp [getKey_objInsert_ne _ _ (fun hh => h hh.symm)]

theorem getKey_foldl_objInsert_nil (l : List (String × JSON)) (k : String)
    (h : (l.map Prod.fst).Nodup) :
    getKey (l.foldl (fun o p => objInsert o p.1 p.2) []) k = getKey l k := by
  rw [getKey_foldl_objInsert l [] k h]
  cases getKey l k <;> rfl

theorem keys_collectorAdd (c : List (String × List JSON)) (k : String) (v : JSON) :
    (collectorAdd c k v).map Prod.fst
      = if k ∈ c.map Prod.fst then c.map Prod.fst else c.map Prod.fst ++ [k] := by
  induction c with
  | nil => simp [collectorAdd]
  | cons p rest ih =>
      by_cases h : p.1 = k
      · simp [collectorAdd, h]
      · have h' : ¬ k = p.1 := fun hh => h hh.symm
        by_cases hm : k ∈ rest.map Prod.fst <;>
          simp [collectorAdd, h, ih, hm, h', List.mem_cons]

theorem nodup_keys_collectorAdd {c : List (String × List JSON)} {k : String} {v : JSON}
    (h : (c.map Prod.fst).Nodup) : ((collectorAdd c k v).map Prod.fst).Nodup := by
  rw [keys_collectorAdd]
  by_cases hm : k ∈ c.map Prod.fst
  · simpa [hm] using h
  · simpa [hm, List.nodup_append] using h

theorem nodup_keys_collector_foldl (pairs : List (String × JSON)) :
    ∀ (c0 : List (String × List JSON)), (c0.map Prod.fst).Nodup →
      ((pairs.foldl (fun c p => collectorAdd c p.1 p.2) c0).map Prod.fst).Nodup := by
  induction pairs with
  | nil => intro c0 h; simpa using h
  | cons p rest ih =>
      intro c0 h
      rw [List.foldl_cons]
      exact ih _ (nodup_keys_collectorAdd h)

theorem keys_collectorDump (c : List (String × List JSON)) :
    (collectorDump c).map Prod.fst = c.map Prod.fst := by
  simp [collectorDump]

/-! ### updateMeta and visitBlock -/

theorem getKey_updateMeta (doc : List (String × JSON)) (k : String) (v : JSON) :
    getKey (updateMeta doc k v) "__tfmeta"
      = (getKey doc "__tfmeta").map
          (fun j =>
            match j with
            | .obj m => .obj (objInsert m k v)
            | other => other) := by
  induction doc with
  | nil => rfl
  | cons p rest ih =>
      by_cases h : p.1 = "__tfmeta"
      · simp [updateMeta, getKey, h]
      · simp only [updateMeta, List.map_cons, if_neg h, getKey]
        simpa [updateMeta] using ih

theorem getKey_updateMeta_ne (doc : List (String × JSON)) (k : String) (v : JSON)
    {k' : String} (h : k' ≠ "__tfmeta") :
    getKey (updateMeta doc k v) k' = getKey doc k' := by
  induction doc with
  | nil => rfl
  | cons p rest ih =>
      by_cases hp : p.1 = "__tfmeta"
      · have : ¬ p.1 = k' := fun hh => h (hh ▸ hp)
        simp only [updateMeta, List.map_cons, if_pos hp, getKey, if_neg this]
        simpa [updateMeta] using ih
      · by_cases hq : p.1 = k'
        · simp only [updateMeta, List.map_cons, if_neg hp, getKey, if_pos hq]
        · simp only [updateMeta, List.map_cons, if_neg hp, getKey, if_neg hq]
          simpa [updateMeta] using ih

theorem tfmetaFields_updateMeta {doc : List (String × JSON)} {m : List (String × JSON)}
    (hdoc : getKey doc "__tfmeta" = some (.obj m)) (k : String) (v : JSON) :
    tfmetaFields (updateMeta doc k v) = objInsert m k v := by
  unfold tfmetaFields
  rw [getKey_updateMeta, hdoc]
  rfl

theorem visitBlock_fst (idx : RefIndex) (out : Output) (b : Block) (pp : String) :
    (visitBlock idx out b pp).1 = insertRef idx b.reference b := by
  unfold visitBlock
  simp only []
  split
  · split <;> rfl
  · rfl

theorem refsMetaOf_buildBlock (idx : RefIndex) (b : Block) :
    refsMetaOf (buildBlock idx b)
      = (getAttributeRefsMeta idx (stringSetEntries (blockAllRefs b))).map JSON.obj := by
  unfold refsMetaOf
  rw [buildBlock_eq, tfmetaFields_buildBlockWith]
  rw [(getKey_metaFieldsFor idx b (blockAllRefs b)).2.2.2.2.2.2]
  by_cases hr : 0 < (getAttributeRefsMeta idx (stringSetEntries (blockAllRefs b))).length
  · simp [hr]
  · have hz : getAttributeRefsMeta idx (stringSetEntries (blockAllRefs b)) = [] :=
      List.length_eq_zero.mp (by omega)
    simp [hr, hz]

/-! ### The reference index across the walk -/

theorem lookupRef_insertRef (idx : RefIndex) (k r : String) (b : Block) :
    lookupRef (insertRef idx k b) r = if k = r then some b else lookupRef idx r := by
  induction idx with
  | nil => simp [insertRef, lookupRef]
  | cons p rest ih =>
      by_cases hp : p.1 = k
      · subst hp
        by_cases h : p.1 = r <;> simp [insertRef, lookupRef, h]
      · by_cases h : p.1 = r
        · have hk : ¬ k = r := fun hh => hp (h.trans hh.symm)
          have hk2 : ¬ r = k := fun hh => hk hh.symm
          simp [insertRef, hp, lookupRef, h, hk, hk2]
        · simp [insertRef, hp, lookupRef, h, ih]

theorem visitBlocks_fold_lookupRef (pp : String) {r : String} :
    ∀ (blocks : List Block) (st : RefIndex × Output),
      (∀ b ∈ blocks, b.reference ≠ r) → lookupRef st.1 r = none →
      lookupRef ((blocks.foldl (fun st b => visitBlock st.1 st.2 b pp) st).1) r = none := by
  intro blocks
  induction blocks with
  | nil => intro st _ h; simpa using h
  | cons b rest ih =>
      intro st hr h
      rw [List.foldl_cons]
      apply ih _ (fun b2 hb2 => hr b2 (List.mem_cons_of_mem _ hb2))
      rw [visitBlock_fst, lookupRef_insertRef,
        if_neg (hr b (List.mem_cons_self _ _)), h]

theorem visitJSON_lookupRef {r : String} :
    ∀ (ms : List Module) (st : RefIndex × Output) (res : RefIndex × Output),
      (∀ m ∈ ms, ∀ b ∈ m.blocks, b.reference ≠ r) → lookupRef st.1 r = none →
      ms.foldlM (fun st m => visitModule st.1 st.2 m) st = some res →
      lookupRef res.1 r = none := by
  intro ms
  induction ms with
  | nil =>
      intro st res _ h hfold
      simp only [List.foldlM_nil, Option.pure_def, Option.some.injEq] at hfold
      exact hfold ▸ h
  | cons m rest ih =>
      intro st res hr h hfold
      rw [List.foldlM_cons] at hfold
      cases hm : visitModule st.1 st.2 m with
      | none => rw [hm] at hfold; cases hfold
      | some st1 =>
          rw [hm] at hfold
          refine ih st1 res (fun m2 hm2 => hr m2 (List.mem_cons_of_mem _ hm2)) ?_ hfold
          unfold visitModule at hm
          cases hpath : getModulePath m.blocks with
          | none => rw [hpath] at hm; cases hm
          | some path =>
              rw [hpath] at hm
              simp only [Option.some.injEq] at hm
              rw [← hm]
              exact visitBlocks_fold_lookupRef path m.blocks st
                (fun b hb => hr m (List.mem_cons_self _ _) b hb) h

/-! ### The child deduplicator on the templated-block scenario -/

theorem getChildBlocksGo_replicate {inst : Block} (hinst : ¬ inst.btype = "dynamic") :
    ∀ (k : Nat) {e : Int} {pm : Nat}, inst.startLine < pm → (k : Int) < e →
      getChildBlocksGo (List.replicate k inst) e pm = List.replicate k inst := by
  intro k
  induction k with
  | zero => intro e pm _ _; rfl
  | succ n ih =>
      intro e pm hover hk
      rw [List.replicate_succ, getChildBlocksGo, if_neg hinst,
        if_neg (by omega), if_pos (by push_cast at hk ⊢; omega)]
      rw [ih hover (by push_cast at hk ⊢; omega)]

/-! ### The module-name set of getModulePath -/

theorem mem_modNames_aux (bs : List Block) :
    ∀ (s : List String) (y : String),
      y ∈ bs.foldl
            (fun s b =>
              let n := getModuleName b
              if n ≠ "" then stringSetAdd s n else s) s
        ↔ y ∈ s ∨ (y ≠ "" ∧ ∃ b ∈ bs, getModuleName b = y) := by
  induction bs with
  | nil => simp
  | cons b rest ih =>
      intro s y
      rw [List.foldl_cons]
      by_cases hb : getModuleName b = ""
      · simp only [hb, ne_eq, not_true_eq_false, if_false, ih]
        constructor
        · rintro (h | ⟨hy, b2, hb2, hgn⟩)
          · exact Or.inl h
          · exact Or.inr ⟨hy, b2, List.mem_cons_of_mem _ hb2, hgn⟩
        · rintro (h | ⟨hy, b2, hb2, hgn⟩)
          · exact Or.inl h
          · rcases List.mem_cons.mp hb2 with rfl | h2
            · exact absurd (hb ▸ hgn.symm) hy
            · exact Or.inr ⟨hy, b2, h2, hgn⟩
      · simp only [ne_eq, hb, not_false_eq_true, if_true, ih, mem_stringSetAdd]
        constructor
        · rintro ((h | rfl) | ⟨hy, b2, hb2, hgn⟩)
          · exact Or.inl h
          · exact Or.inr ⟨hb, b, List.mem_cons_self _ _, rfl⟩
          · exact Or.inr ⟨hy, b2, List.mem_cons_of_mem _ hb2, hgn⟩
        · rintro (h | ⟨hy, b2, hb2, hgn⟩)
          · exact Or.inl (Or.inl h)
          · rcases List.mem_cons.mp hb2 with rfl | h2
            · exact Or.inl (Or.inr hgn.symm)
            · exact Or.inr ⟨hy, b2, h2, hgn⟩

theorem mem_modNames {blocks : List Block} {y : String} :
    y ∈ modNames blocks ↔ y ≠ "" ∧ ∃ b ∈ blocks, getModuleName b = y := by
  unfold modNames
  rw [mem_modNames_aux]
  simp

theorem nodup_modNames (blocks : List Block) : (modNames blocks).Nodup := by
  unfold modNames
  have main : ∀ (bs : List Block) (s : List String), s.Nodup →
      (bs.foldl
          (fun s b =>
            let n := getModuleName b
            if n ≠ "" then stringSetAdd s n else s) s).Nodup := by
    intro bs
    induction bs with
    | nil => intro s hs; simpa using hs
    | cons b rest ih =>
        intro s hs
        rw [List.foldl_cons]
        by_cases hb : getModuleName b = ""
        · simp only [hb, ne_eq, not_true_eq_false, if_false]
          exact ih _ hs
        · simp only [ne_eq, hb, not_false_eq_true, if_true]
          exact ih _ (nodup_stringSetAdd hs)
  exact main _ _ List.nodup_nil

theorem one_lt_length_of_two_mem {l : List String} {x y : String}
    (hx : x ∈ l) (hy : y ∈ l) (hne : x ≠ y) : 1 < l.length := by
  have hy2 : y ∈ l.erase x := (List.mem_erase_of_ne fun hh => hne hh.symm).mpr hy
  have h1 : 0 < (l.erase x).length := List.length_pos_of_mem hy2
  have h2 : (l.erase x).length = l.length - 1 := List.length_erase_of_mem hx
  omega

theorem eq_singleton_of_all_eq {l : List String} {n : String}
    (hmem : n ∈ l) (hall : ∀ y ∈ l, y = n) (hnd : l.Nodup) : l = [n] := by
  cases l with
  | nil => cases hmem
  | cons a rest =>
      have ha : a = n := hall a (List.mem_cons_self _ _)
      subst ha
      cases rest with
      | nil => rfl
      | cons b rs =>
          have hb : b = a := hall b (List.mem_cons_of_mem _ (List.mem_cons_self _ _))
          rw [List.nodup_cons] at hnd
          exact absurd (hb ▸ List.mem_cons_self b rs : a ∈ b :: rs) hnd.1

/-! ### Claims -/

/-- C1: for a block whose raw descendant enumeration is a dynamic template
block (whose for_each evaluates to a collection of length N) followed in
source order by N overlapping duplicated instances of the templated child
type, getChildBlocks returns exactly those N instances, so exactly N
children, and the template block itself is never among them. -/
theorem c1_template_expansion (b dyn inst : Block) (fa : Attribute)
    (vs : List CtyValue) (N : Nat)
    (hch : b.children = dyn :: List.replicate N inst)
    (hdyn : dyn.btype = "dynamic")
    (hfa : getAttribute dyn "for_each" = some fa)
    (hval : fa.value = CtyValue.list vs)
    (hN : vs.length = N)
    (hinst : inst.btype ≠ "dynamic")
    (hover : inst.startLine < inst.endLine) :
    getChildBlocks b = List.replicate N inst
    ∧ (getChildBlocks b).length = N
    ∧ dyn ∉ getChildBlocks b := by
  have hfec : getForEachCount dyn = N := by
    simp [getForEachCount, hfa, hval, hN]
  have hmain : getChildBlocks b = List.replicate N inst := by
    unfold getChildBlocks
    rw [hch, getChildBlocksGo, if_pos hdyn, hfec]
    cases N with
    | zero => rfl
    | succ n =>
        rw [List.replicate_succ, getChildBlocksGo, if_neg hinst,
          if_pos (Nat.zero_le _),
          getChildBlocksGo_replicate hinst n hover (by push_cast; omega)]
  refine ⟨hmain, by rw [hmain, List.length_replicate], ?_⟩
  rw [hmain]
  intro hmem
  have heq : dyn = inst := List.eq_of_mem_replicate hmem
  rw [heq] at hdyn
  exact hinst hdyn

/-- C1 witness: a template with a two-element for_each followed by its two
overlapping duplicated instances yields exactly those two children. -/
theorem c1_template_expansion_witness :
    parentW.children = dynW :: List.replicate 2 instW
    ∧ dynW.btype = "dynamic"
    ∧ getAttribute dynW "for_each" = some feAttrW
    ∧ feAttrW.value = CtyValue.list [CtyValue.string "a", CtyValue.string "b"]
    ∧ instW.btype ≠ "dynamic"
    ∧ instW.startLine < instW.endLine
    ∧ getChildBlocks parentW = List.replicate 2 instW
    ∧ (getChildBlocks parentW).length = 2
    ∧ dynW ∉ getChildBlocks parentW := by
  refine ⟨rfl, rfl, rfl, rfl, by decide, by decide, ?_⟩
  exact c1_template_expansion parentW dynW instW feAttrW _ 2 rfl rfl rfl rfl rfl
    (by decide) (by decide)

/-- C2 counterexample: the integral value 2 to the power 100 converts to the
int64 maximum 9223372036854775807, not to itself: the emitted integer loses
precision for integers outside the 64-bit range, refuting the claim that no
silent precision loss occurs at any magnitude. -/
theorem c2_counterexample :
    convertCtyToNativeValue (CtyValue.number (1267650600228229401496703205376 : ℚ))
        = some (JSON.int 9223372036854775807)
    ∧ (9223372036854775807 : Int) ≠ (1267650600228229401496703205376 : Int) :=
  ⟨rfl, by decide⟩

/-- C2 amended: the integral check is exact at arbitrary precision, and the
emitted integer equals the value whenever it lies within the signed 64-bit
range; outside that range the emitted integer is silently clamped to the
int64 bounds; non-integral values are emitted as floating-point. -/
theorem c2_number_conversion (q : ℚ) :
    (q.den = 1 → -9223372036854775808 ≤ q.num → q.num ≤ 9223372036854775807 →
      convertCtyToNativeValue (CtyValue.number q) = some (JSON.int q.num))
    ∧ (q.den = 1 → 9223372036854775807 < q.num →
      convertCtyToNativeValue (CtyValue.number q) = some (JSON.int 9223372036854775807))
    ∧ (q.den = 1 → q.num < -9223372036854775808 →
      convertCtyToNativeValue (CtyValue.number q) = some (JSON.int (-9223372036854775808)))
    ∧ (q.den ≠ 1 → convertCtyToNativeValue (CtyValue.number q) = some (JSON.float q)) := by
  refine ⟨?_, ?_, ?_, ?_⟩
  · intro hden hlo hhi
    simp only [convertCtyToNativeValue, if_pos hden, bigFloatInt64]
    rw [if_neg (by omega), if_neg (by omega)]
  · intro hden hhi
    simp only [convertCtyToNativeValue, if_pos hden, bigFloatInt64]
    rw [if_neg (by omega), if_pos (by omega)]
  · intro hden hlo
    simp only [convertCtyToNativeValue, if_pos hden, bigFloatInt64]
    rw [if_pos (by omega)]
  · intro hden
    simp only [convertCtyToNativeValue, if_neg hden]

/-- C2 witness: the integral value 5 is emitted as the exact integer 5, and
the non-integral value 11/2 is emitted as floating-point. -/
theorem c2_number_conversion_witness :
    (5 : ℚ).den = 1
    ∧ -9223372036854775808 ≤ (5 : ℚ).num ∧ (5 : ℚ).num ≤ 9223372036854775807
    ∧ convertCtyToNativeValue (CtyValue.number 5) = some (JSON.int (5 : ℚ).num)
    ∧ (Rat.mk' 11 2).den ≠ 1
    ∧ convertCtyToNativeValue (CtyValue.number (Rat.mk' 11 2))
        = some (JSON.float (Rat.mk' 11 2)) := by
  refine ⟨by decide, by decide, by decide, ?_, by decide, ?_⟩
  · exact (c2_number_conversion 5).1 (by decide) (by decide) (by decide)
  · exact (c2_number_conversion (Rat.mk' 11 2)).2.2.2 (by decide)

/-- C8: getPath returns the block position-qualified name when the parent
path is empty, and otherwise the parent path, a dot, and the name. -/
theorem c8_path_composition (b : Block) (pp : String) :
    (pp = "" → getPath b pp = b.metaString)
    ∧ (pp ≠ "" → getPath b pp = pp ++ "." ++ b.metaString) := by
  constructor
  · intro h; simp [getPath, h]
  · intro h; simp [getPath, h]

/-- C8 witness: aws_s3_bucket.main under module.infra becomes
module.infra.aws_s3_bucket.main, and at module root stays itself. -/
theorem c8_path_composition_witness :
    ("module.infra" : String) ≠ ""
    ∧ getPath pathBlockW "module.infra" = "module.infra.aws_s3_bucket.main"
    ∧ getPath pathBlockW "" = "aws_s3_bucket.main" := by
  refine ⟨by decide, ?_, ?_⟩
  · exact ((c8_path_composition pathBlockW "module.infra").2 (by decide)).trans (by decide)
  · exact (c8_path_composition pathBlockW "").1 rfl

/-- C10: Entries on a set of n distinct strings returns a slice of length
2n whose first n elements are empty strings followed by the n members, and
under an index that has no entry for the empty string the padding
contributes no reference descriptor. -/
theorem c10_entries_padding (s : List String) (idx : RefIndex)
    (h : lookupRef idx "" = none) :
    (stringSetEntries s).length = 2 * s.length
    ∧ (stringSetEntries s).take s.length = List.replicate s.length ""
    ∧ (stringSetEntries s).drop s.length = s
    ∧ getAttributeRefsMeta idx (stringSetEntries s) = getAttributeRefsMeta idx s := by
  refine ⟨?_, ?_, ?_, getAttributeRefsMeta_entries idx s h⟩
  · simp [stringSetEntries]
    omega
  · rw [stringSetEntries]
    exact List.take_left' (by simp)
  · rw [stringSetEntries]
    exact List.drop_left' (by simp)

/-- C10 witness: a two-element set yields four entries, two empty ones
first, and the padding adds no descriptor over the empty index. -/
theorem c10_entries_padding_witness :
    lookupRef [] "" = none
    ∧ ((stringSetEntries ["a", "b"]).length = 2 * (["a", "b"] : List String).length
       ∧ (stringSetEntries ["a", "b"]).take (["a", "b"] : List String).length
           = List.replicate (["a", "b"] : List String).length ""
       ∧ (stringSetEntries ["a", "b"]).drop (["a", "b"] : List String).length = ["a", "b"]
       ∧ getAttributeRefsMeta [] (stringSetEntries ["a", "b"])
           = getAttributeRefsMeta [] ["a", "b"]) :=
  ⟨rfl, c10_entries_padding ["a", "b"] [] rfl⟩

/-- C5: a module whose root blocks yield two distinct nonempty enclosing
module names makes the conversion abort (getModulePath panics, modelled as
none); with at most one distinct nonempty name getModulePath returns that
name, or the empty string when there is none. -/
theorem c5_module_path_conflict (blocks : List Block) :
    (∀ b1 ∈ blocks, ∀ b2 ∈ blocks,
        getModuleName b1 ≠ "" → getModuleName b2 ≠ "" →
        getModuleName b1 ≠ getModuleName b2 → getModulePath blocks = none)
    ∧ (∀ n : String, n ≠ "" → (∃ b ∈ blocks, getModuleName b = n) →
        (∀ b ∈ blocks, getModuleName b = "" ∨ getModuleName b = n) →
        getModulePath blocks = some n)
    ∧ ((∀ b ∈ blocks, getModuleName b = "") → getModulePath blocks = some "") := by
  refine ⟨?_, ?_, ?_⟩
  · intro b1 h1 b2 h2 hn1 hn2 hne
    have hm1 : getModuleName b1 ∈ modNames blocks := mem_modNames.mpr ⟨hn1, b1, h1, rfl⟩
    have hm2 : getModuleName b2 ∈ modNames blocks := mem_modNames.mpr ⟨hn2, b2, h2, rfl⟩
    have hlen : 1 < (modNames blocks).length := one_lt_length_of_two_mem hm1 hm2 hne
    unfold getModulePath
    simp only []
    rw [if_pos hlen]
  · intro n hn hex hall
    have hmem : n ∈ modNames blocks := mem_modNames.mpr ⟨hn, hex⟩
    have hall2 : ∀ y ∈ modNames blocks, y = n := by
      intro y hy
      rcases mem_modNames.mp hy with ⟨hy0, b, hb, hgn⟩
      rcases hall b hb with h | h
      · exact absurd (by rw [← hgn, h]) hy0
      · rw [← hgn, h]
    have hsing : modNames blocks = [n] :=
      eq_singleton_of_all_eq hmem hall2 (nodup_modNames blocks)
    unfold getModulePath
    simp only []
    rw [hsing]
    simp
  · intro hall
    have hempty : modNames blocks = [] := by
      rw [List.eq_nil_iff_forall_not_mem]
      intro y hy
      rcases mem_modNames.mp hy with ⟨hy0, b, hb, hgn⟩
      exact hy0 (by rw [← hgn]; exact hall b hb)
    unfold getModulePath
    simp only []
    rw [hempty]
    rfl

/-- C5 witness: two root blocks inside module.a and module.b make the path
computation abort; a lone module.a block yields module.a; no nesting yields
the empty string. -/
theorem c5_module_path_conflict_witness :
    getModuleName inModA = "module.a"
    ∧ getModuleName inModB = "module.b"
    ∧ getModulePath [inModA, inModB] = none
    ∧ getModulePath [inModA] = some "module.a"
    ∧ getModulePath [] = some "" := by
  refine ⟨rfl, rfl, ?_, ?_, ?_⟩
  · exact (c5_module_path_conflict _).1 inModA (by simp) inModB (by simp)
      (by decide) (by decide) (by decide)
  · exact (c5_module_path_conflict _).2.1 "module.a" (by decide) ⟨inModA, by simp, rfl⟩
      (by intro b hb; rw [List.mem_singleton] at hb; subst hb; right; rfl)
  · exact (c5_module_path_conflict _).2.2 (by intro b hb; cases hb)

/-- C9: only blocks visited at module top level are registered in
blocksByReference: after a complete walk, any reference string that is not
the reference of some top-level block (in particular that of a nested child
block) does not resolve and yields no reference descriptor. -/
theorem c9_index_top_level_only (ms : List Module) (res : RefIndex × Output) (r : String)
    (hres : visitJSON ms = some res)
    (hr : ∀ m ∈ ms, ∀ b ∈ m.blocks, b.reference ≠ r) :
    lookupRef res.1 r = none ∧ getAttributeRefsMeta res.1 [r] = [] := by
  have h1 : lookupRef res.1 r = none :=
    visitJSON_lookupRef ms ([], []) res hr rfl hres
  refine ⟨h1, ?_⟩
  simp [getAttributeRefsMeta, h1]

/-- C9 witness: a walk over one module with one resource block leaves any
other reference string unresolved with no descriptor. -/
theorem c9_index_top_level_only_witness :
    visitJSON c9Mods = some c9Res
    ∧ (∀ m ∈ c9Mods, ∀ b ∈ m.blocks, b.reference ≠ "none.such")
    ∧ lookupRef c9Res.1 "none.such" = none
    ∧ getAttributeRefsMeta c9Res.1 ["none.such"] = [] := by
  have hr : ∀ m ∈ c9Mods, ∀ b ∈ m.blocks, b.reference ≠ "none.such" := by
    intro m hm b hb
    rw [show c9Mods = [Module.mk [refTargetW]] from rfl, List.mem_singleton] at hm
    subst hm
    rw [show (Module.mk [refTargetW]).blocks = [refTargetW] from rfl,
      List.mem_singleton] at hb
    subst hb
    decide
  exact ⟨rfl, hr, c9_index_top_level_only c9Mods c9Res "none.such" rfl hr⟩

/-- C3 counterexample: converting a module block with one nested child, the
child document produced by the recursive builder carries filename,
line_start and line_end in its reserved metadata but no path key, refuting
the claim that every document node (child nodes included) carries path. -/
theorem c3_child_path_counterexample :
    (visitBlock [] [] c3Parent "").2
        = [("module", [JSON.obj (updateMeta (buildBlock c3Idx c3Parent) "path"
            (JSON.str "module.m"))])]
    ∧ getKey (buildBlock c3Idx c3Parent) "child_block"
        = some (JSON.obj (buildBlock c3Idx c3Child))
    ∧ getKey (updateMeta (buildBlock c3Idx c3Parent) "path" (JSON.str "module.m"))
          "child_block"
        = some (JSON.obj (buildBlock c3Idx c3Child))
    ∧ objHasKey (tfmetaFields (buildBlock c3Idx c3Child)) "filename" = true
    ∧ objHasKey (tfmetaFields (buildBlock c3Idx c3Child)) "line_start" = true
    ∧ objHasKey (tfmetaFields (buildBlock c3Idx c3Child)) "line_end" = true
    ∧ objHasKey (tfmetaFields (buildBlock c3Idx c3Child)) "path" = false :=
  ⟨rfl, rfl, rfl, rfl, rfl, rfl, rfl⟩

/-- C3 amended: every built document node carries filename, line_start and
line_end in its reserved metadata, with label and references conditional and
type absent at build time; the path key is present only on top-level nodes,
where visitBlock adds it (and type for data and resource blocks) before
appending the document; recursively built child nodes never carry path. -/
theorem c3_meta_keys (idx : RefIndex) (out : Output) (b : Block) (pp : String) :
    (objHasKey (tfmetaFields (buildBlock idx b)) "filename" = true
     ∧ objHasKey (tfmetaFields (buildBlock idx b)) "line_start" = true
     ∧ objHasKey (tfmetaFields (buildBlock idx b)) "line_end" = true
     ∧ objHasKey (tfmetaFields (buildBlock idx b)) "path" = false
     ∧ objHasKey (tfmetaFields (buildBlock idx b)) "type" = false
     ∧ (objHasKey (tfmetaFields (buildBlock idx b)) "label" = true ↔ b.typeLabel ≠ "")
     ∧ (objHasKey (tfmetaFields (buildBlock idx b)) "references" = true
         ↔ refsMetaOf (buildBlock idx b) ≠ []))
    ∧ (b.btype ∈ handledBlockTypes →
       ∃ key doc, (visitBlock idx out b pp).2 = arrayAppend out key (JSON.obj doc)
         ∧ objHasKey (tfmetaFields doc) "filename" = true
         ∧ objHasKey (tfmetaFields doc) "line_start" = true
         ∧ objHasKey (tfmetaFields doc) "line_end" = true
         ∧ objHasKey (tfmetaFields doc) "path" = true) := by
  constructor
  · have hbm : tfmetaFields (buildBlock idx b) = metaFieldsFor idx b (blockAllRefs b) := by
      rw [buildBlock_eq, tfmetaFields_buildBlockWith]
    have hk := getKey_metaFieldsFor idx b (blockAllRefs b)
    rw [hbm]
    refine ⟨?_, ?_, ?_, ?_, ?_, ?_, ?_⟩
    · unfold objHasKey; rw [hk.1]; rfl
    · unfold objHasKey; rw [hk.2.1]; rfl
    · unfold objHasKey; rw [hk.2.2.1]; rfl
    · unfold objHasKey; rw [hk.2.2.2.1]; rfl
    · unfold objHasKey; rw [hk.2.2.2.2.1]; rfl
    · unfold objHasKey
      rw [hk.2.2.2.2.2.1]
      by_cases hl : b.typeLabel = "" <;> simp [hl]
    · unfold objHasKey
      rw [hk.2.2.2.2.2.2, refsMetaOf_buildBlock]
      by_cases hr : 0 < (getAttributeRefsMeta idx (stringSetEntries (blockAllRefs b))).length
      · have hne : getAttributeRefsMeta idx (stringSetEntries (blockAllRefs b)) ≠ [] := by
          intro hcon
          rw [hcon] at hr
          simp at hr
        simp [hr, hne]
      · have hz : getAttributeRefsMeta idx (stringSetEntries (blockAllRefs b)) = [] :=
          List.length_eq_zero.mp (by omega)
        simp [hr, hz]
  · intro hb
    have hjson : getKey (buildBlock (insertRef idx b.reference b) b) "__tfmeta"
        = some (.obj (metaFieldsFor (insertRef idx b.reference b) b (blockAllRefs b))) := by
      rw [buildBlock_eq]
      exact getKey_buildBlockWith_tfmeta _ _ _
    have hk := getKey_metaFieldsFor (insertRef idx b.reference b) b (blockAllRefs b)
    have h2 : ∀ vp, getKey
        (updateMeta (buildBlock (insertRef idx b.reference b) b) "path" vp) "__tfmeta"
        = some (.obj (objInsert
            (metaFieldsFor (insertRef idx b.reference b) b (blockAllRefs b)) "path" vp)) := by
      intro vp
      rw [getKey_updateMeta, hjson]
      rfl
    by_cases hdr : b.btype = "data" ∨ b.btype = "resource"
    · have hsnd : (visitBlock idx out b pp).2
          = arrayAppend out b.typeLabel
              (JSON.obj (updateMeta
                (updateMeta (buildBlock (insertRef idx b.reference b) b) "path"
                  (.str (getPath b pp)))
                "type" (.str b.btype))) := by
        unfold visitBlock
        simp only []
        rw [if_pos hb, if_pos hdr]
      have hmeta : tfmetaFields
          (updateMeta
            (updateMeta (buildBlock (insertRef idx b.reference b) b) "path"
              (.str (getPath b pp)))
            "type" (.str b.btype))
          = objInsert (objInsert
              (metaFieldsFor (insertRef idx b.reference b) b (blockAllRefs b)) "path"
              (.str (getPath b pp))) "type" (.str b.btype) :=
        tfmetaFields_updateMeta (h2 _) _ _
      refine ⟨b.typeLabel, _, hsnd, ?_, ?_, ?_, ?_⟩ <;> rw [hmeta] <;> unfold objHasKey
      · rw [getKey_objInsert_ne _ _ (by decide), getKey_objInsert_ne _ _ (by decide), hk.1]
        rfl
      · rw [getKey_objInsert_ne _ _ (by decide), getKey_objInsert_ne _ _ (by decide), hk.2.1]
        rfl
      · rw [getKey_objInsert_ne _ _ (by decide), getKey_objInsert_ne _ _ (by decide),
          hk.2.2.1]
        rfl
      · rw [getKey_objInsert_ne _ _ (by decide), getKey_objInsert_self]
        rfl
    · have hsnd : (visitBlock idx out b pp).2
          = arrayAppend out b.btype
              (JSON.obj (updateMeta (buildBlock (insertRef idx b.reference b) b) "path"
                (.str (getPath b pp)))) := by
        unfold visitBlock
        simp only []
        rw [if_pos hb, if_neg hdr]
      have hmeta : tfmetaFields
          (updateMeta (buildBlock (insertRef idx b.reference b) b) "path"
            (.str (getPath b pp)))
          = objInsert (metaFieldsFor (insertRef idx b.reference b) b (blockAllRefs b))
              "path" (.str (getPath b pp)) :=
        tfmetaFields_updateMeta hjson _ _
      refine ⟨b.btype, _, hsnd, ?_, ?_, ?_, ?_⟩ <;> rw [hmeta] <;> unfold objHasKey
      · rw [getKey_objInsert_ne _ _ (by decide), hk.1]; rfl
      · rw [getKey_objInsert_ne _ _ (by decide), hk.2.1]; rfl
      · rw [getKey_objInsert_ne _ _ (by decide), hk.2.2.1]; rfl
      · rw [getKey_objInsert_self]; rfl

/-- C3 witness: the module block with a nested child is a handled type and
its appended top-level document carries all four metadata keys. -/
theorem c3_meta_keys_witness :
    c3Parent.btype ∈ handledBlockTypes
    ∧ (∃ key doc, (visitBlock [] [] c3Parent "").2 = arrayAppend [] key (JSON.obj doc)
        ∧ objHasKey (tfmetaFields doc) "filename" = true
        ∧ objHasKey (tfmetaFields doc) "line_start" = true
        ∧ objHasKey (tfmetaFields doc) "line_end" = true
        ∧ objHasKey (tfmetaFields doc) "path" = true) :=
  ⟨by decide, (c3_meta_keys [] [] c3Parent "").2 (by decide)⟩

/-- C4: when block A has an attribute containing reference string r, the
references metadata of the built document is exactly one descriptor (id,
type label, name label) per distinct resolving reference of A, in
particular one descriptor of B when r resolves to B; unresolved references
contribute nothing, and when no reference resolves the references key is
omitted from the metadata. -/
theorem c4_reference_resolution (idx : RefIndex) (b : Block) (r : String)
    (hempty : lookupRef idx "" = none)
    (hr : ∃ a ∈ b.attributes, r ∈ a.allReferences) :
    refsMetaOf (buildBlock idx b)
        = ((blockAllRefs b).filterMap fun s => (lookupRef idx s).map mkRefDescriptor).map
            JSON.obj
    ∧ (blockAllRefs b).Nodup
    ∧ r ∈ blockAllRefs b
    ∧ (∀ B, lookupRef idx r = some B →
        JSON.obj (mkRefDescriptor B) ∈ refsMetaOf (buildBlock idx b))
    ∧ (∀ j ∈ refsMetaOf (buildBlock idx b),
        ∃ s ∈ blockAllRefs b, ∃ B, lookupRef idx s = some B ∧ j = JSON.obj (mkRefDescriptor B))
    ∧ ((∀ s ∈ blockAllRefs b, lookupRef idx s = none) →
        objHasKey (tfmetaFields (buildBlock idx b)) "references" = false) := by
  have hchar : refsMetaOf (buildBlock idx b)
      = ((blockAllRefs b).filterMap fun s => (lookupRef idx s).map mkRefDescriptor).map
          JSON.obj := by
    rw [refsMetaOf_buildBlock, getAttributeRefsMeta_entries _ _ hempty,
      getAttributeRefsMeta_eq_filterMap]
  have hmem : r ∈ blockAllRefs b := mem_blockAllRefs.mpr hr
  refine ⟨hchar, nodup_blockAllRefs b, hmem, ?_, ?_, ?_⟩
  · intro B hB
    rw [hchar]
    exact List.mem_map_of_mem _ (List.mem_filterMap.mpr ⟨r, hmem, by rw [hB]; rfl⟩)
  · intro j hj
    rw [hchar] at hj
    rcases List.mem_map.mp hj with ⟨d, hd, rfl⟩
    rcases List.mem_filterMap.mp hd with ⟨s, hs, hsd⟩
    cases hB : lookupRef idx s with
    | none => rw [hB] at hsd; cases hsd
    | some B =>
        rw [hB, Option.map_some'] at hsd
        cases hsd
        exact ⟨s, hs, B, hB, rfl⟩
  · intro hall
    have hzero : getAttributeRefsMeta idx (stringSetEntries (blockAllRefs b)) = [] := by
      rw [getAttributeRefsMeta_entries _ _ hempty, getAttributeRefsMeta_eq_filterMap,
        List.filterMap_eq_nil_iff]
      intro s hs
      rw [hall s hs]
      rfl
    rw [buildBlock_eq, tfmetaFields_buildBlockWith]
    unfold objHasKey
    rw [(getKey_metaFieldsFor idx b (blockAllRefs b)).2.2.2.2.2.2, hzero]
    rfl

/-- C4 witness: a block referencing aws_s3_bucket.b gets exactly its
descriptor when the target is registered, and the references key is omitted
over an empty index. -/
theorem c4_reference_resolution_witness :
    lookupRef refIdxW "" = none
    ∧ (∃ a ∈ refSourceW.attributes, "aws_s3_bucket.b" ∈ a.allReferences)
    ∧ lookupRef refIdxW "aws_s3_bucket.b" = some refTargetW
    ∧ JSON.obj (mkRefDescriptor refTargetW) ∈ refsMetaOf (buildBlock refIdxW refSourceW)
    ∧ refsMetaOf (buildBlock refIdxW refSourceW)
        = [JSON.obj [("id", JSON.str "id-b"), ("label", JSON.str "aws_s3_bucket"),
            ("name", JSON.str "b")]]
    ∧ objHasKey (tfmetaFields (buildBlock [] refSourceW)) "references" = false := by
  have hex : ∃ a ∈ refSourceW.attributes, "aws_s3_bucket.b" ∈ a.allReferences := by
    refine ⟨refAttrW, ?_, ?_⟩
    · rw [show refSourceW.attributes = [refAttrW] from rfl]
      exact List.mem_cons_self _ _
    · rw [show refAttrW.allReferences = ["aws_s3_bucket.b"] from rfl]
      exact List.mem_cons_self _ _
  refine ⟨rfl, hex, rfl, ?_, rfl, ?_⟩
  · exact (c4_reference_resolution refIdxW refSourceW "aws_s3_bucket.b" rfl hex).2.2.2.1
      refTargetW rfl
  · refine (c4_reference_resolution [] refSourceW "aws_s3_bucket.b" rfl hex).2.2.2.2.2 ?_
    intro s hs
    rfl

/-- C6: an attribute whose typed value the converter rejects gets its raw
textual representation stored in the document, without aborting, and every
attribute (of a non-special kind) gets exactly its own converted-or-raw
value, independently of the other attributes of the block. -/
theorem c6_raw_fallback (idx : RefIndex) (b : Block) {a : Attribute}
    (hmem : a ∈ b.attributes)
    (hnd : (b.attributes.map Attribute.name).Nodup)
    (hvar : ¬ (b.btype = "variable" ∧ a.name = "type"))
    (hid : a.name ≠ "id" ∨ b.idStr = "")
    (hmeta : a.name ≠ "__tfmeta") :
    getKey (buildBlock idx b) a.name = some (getAttributeValue a)
    ∧ (convertCtyToNativeValue a.value = none → getAttributeValue a = a.rawValue)
    ∧ (∀ j, convertCtyToNativeValue a.value = some j → getAttributeValue a = j) := by
  have h2 : attrObjValue b.btype a = getAttributeValue a := by
    unfold attrObjValue
    rw [if_neg hvar]
  have h1 : getKey (buildBlock idx b) a.name = some (attrObjValue b.btype a) := by
    rw [buildBlock_eq]
    exact getKey_buildBlockWith_attr _ _ _ hmem hnd hid hmeta
  refine ⟨by rw [h1, h2], ?_, ?_⟩
  · intro hc
    unfold getAttributeValue
    rw [hc]
  · intro j hc
    unfold getAttributeValue
    rw [hc]

/-- C6 witness: a block with an opaque attribute and a numeric attribute
stores the raw text for the former and the converted value for the latter. -/
theorem c6_raw_fallback_witness :
    badAttrW ∈ c6Block.attributes
    ∧ (c6Block.attributes.map Attribute.name).Nodup
    ∧ convertCtyToNativeValue badAttrW.value = none
    ∧ getKey (buildBlock [] c6Block) badAttrW.name = some badAttrW.rawValue
    ∧ getKey (buildBlock [] c6Block) goodAttrW.name = some (JSON.int 3) := by
  have hmem1 : badAttrW ∈ c6Block.attributes := by
    rw [show c6Block.attributes = [badAttrW, goodAttrW] from rfl]
    exact List.mem_cons_self _ _
  have hmem2 : goodAttrW ∈ c6Block.attributes := by
    rw [show c6Block.attributes = [badAttrW, goodAttrW] from rfl]
    exact List.mem_cons_of_mem _ (List.mem_cons_self _ _)
  have hnd : (c6Block.attributes.map Attribute.name).Nodup := by decide
  refine ⟨hmem1, hnd, rfl, ?_, ?_⟩
  · have h := c6_raw_fallback [] c6Block hmem1 hnd (by decide) (Or.inl (by decide))
      (by decide)
    exact h.1.trans (by rw [h.2.1 rfl])
  · have h := c6_raw_fallback [] c6Block hmem2 hnd (by decide) (Or.inl (by decide))
      (by decide)
    exact h.1.trans (by rw [h.2.2 (JSON.int 3) rfl])

/-- C7: with X the type of the deduplicated children in question, a block
with exactly one such child stores document X as the single nested child
document, and a block with two or more stores a list of the child documents
in source order. -/
theorem c7_singleton_flattening (idx : RefIndex) (b : Block) (X : String)
    (hattr : ∀ a ∈ b.attributes, a.name ≠ X)
    (hid : X ≠ "id") (hmeta : X ≠ "__tfmeta") :
    (∀ c0, (getChildBlocks b).filter (fun c => c.btype == X) = [c0] →
        getKey (buildBlock idx b) X = some (JSON.obj (buildBlock idx c0)))
    ∧ (2 ≤ ((getChildBlocks b).filter (fun c => c.btype == X)).length →
        getKey (buildBlock idx b) X
          = some (JSON.arr (((getChildBlocks b).filter (fun c => c.btype == X)).map
              fun c => JSON.obj (buildBlock idx c)))) := by
  have hkey : getKey (buildBlock idx b) X
      = (optAppend none
          (((getChildBlocks b).filter (fun c => c.btype == X)).map
            fun c => JSON.obj (buildBlock idx c))).map collectorFlatten := by
    rw [buildBlock_eq, getKey_buildBlockWith_other _ _ _ hattr hid hmeta,
      getKey_foldl_objInsert_nil _ _ ?hnd, getKey_collectorDump, collectLookup_foldl,
      List.filter_map, List.map_map]
    · rfl
    case hnd =>
      rw [keys_collectorDump]
      exact nodup_keys_collector_foldl _ [] (by simp)
  constructor
  · intro c0 h
    rw [hkey, h]
    rfl
  · intro h2
    rcases hys : (getChildBlocks b).filter (fun c => c.btype == X) with _ | ⟨y1, tail⟩
    · rw [hys] at h2
      simp at h2
    · rcases tail with _ | ⟨y2, rest⟩
      · rw [hys] at h2
        simp at h2
      · rw [hkey, hys]
        rfl

/-- C7 witness: two deduplicated ingress children yield a two-element list
in source order, and a single ingress child yields the nested object. -/
theorem c7_singleton_flattening_witness :
    (getChildBlocks parentOneW).filter (fun c => c.btype == "ingress") = [instW]
    ∧ getKey (buildBlock [] parentOneW) "ingress" = some (JSON.obj (buildBlock [] instW))
    ∧ 2 ≤ ((getChildBlocks parentW).filter (fun c => c.btype == "ingress")).length
    ∧ getKey (buildBlock [] parentW) "ingress"
        = some (JSON.arr [JSON.obj (buildBlock [] instW), JSON.obj (buildBlock [] instW)]) := by
  refine ⟨rfl, ?_, by decide, ?_⟩
  · exact (c7_singleton_flattening [] parentOneW "ingress"
      (by intro a ha; cases ha) (by decide) (by decide)).1 instW rfl
  · exact ((c7_singleton_flattening [] parentW "ingress"
      (by intro a ha; cases ha) (by decide) (by decide)).2 (by decide)).trans rfl

end Tfparse
